import Mathlib

/-
Verification of the persistent procedural world subsystem of the
cmpm-121-demo-3 location-based collection game.

The development shallowly embeds the TypeScript sources:
  * decimal printing of integers models how JS renders integral numbers
    (template literals `${i}` and `[i, j].toString()`, and JSON.stringify
    of integral numbers);
  * `Cache.toMomento` / `Cache.fromMomento` (src/cache.ts) are modelled at
    the string level: `toMomento` produces the exact JSON text
    `{"i":I,"j":J,"coins":[{"i":..,"j":..,"serial":".."},..]}` that
    JSON.stringify emits for the cache object, and `fromMomento` is a
    parser for that grammar (per the spec, deserialization assumes content
    produced by this same system);
  * the Board's `knownCells` and `cacheStates` JS Maps are association
    lists with JS Map semantics (set replaces in place, insertion order);
  * coordinates are rationals; `Math.floor` is `Int.floor` and
    `Math.trunc` is rounding toward zero;
  * the deterministic hash generator `luck` is an opaque parameter
    `String → ℚ`, reflecting that it is a pure function of its key.
Numbers that the game manipulates (cell indices, coin counts, serial
numbers) are integral, so rational/integer arithmetic coincides with the
JS float arithmetic on the values that actually occur.
-/

namespace Demo3

/-! ## Decimal digits and integer printing -/

/-- The character for a decimal digit `d < 10` (code 48 is `'0'`). -/
def digitChar (d : Nat) : Char := Char.ofNat (48 + d)

/-- Decimal digit test on characters, by code point. -/
def isDigitCh (c : Char) : Bool := 48 ≤ c.toNat && c.toNat ≤ 57

/-- Fuel-driven digit emitter: prints `n` in decimal, most significant
digit first.  Fuel `n + 1` always suffices because `n / 10 < n`. -/
def natCharsAux : Nat → Nat → List Char
  | 0, _ => []
  | fuel + 1, n =>
    if n < 10 then [digitChar n]
    else natCharsAux fuel (n / 10) ++ [digitChar (n % 10)]

/-- Decimal representation of a natural number, as JS prints it. -/
def natChars (n : Nat) : List Char := natCharsAux (n + 1) n

/-- Decimal representation of an integer, as JS prints it. -/
def intChars (i : Int) : List Char :=
  if i < 0 then '-' :: natChars i.natAbs else natChars i.natAbs

/-- String form of `natChars`; models the template literal for a Nat. -/
def natStr (n : Nat) : String := String.mk (natChars n)

/-- String form of `intChars`; models the template literal for an Int. -/
def intStr (i : Int) : String := String.mk (intChars i)

/-! ## Parsing decimal numbers back -/

/-- Consume a maximal run of decimal digits, accumulating their value. -/
def scanNat (acc : Nat) : List Char → Nat × List Char
  | [] => (acc, [])
  | c :: cs =>
    if isDigitCh c then scanNat (acc * 10 + (c.toNat - 48)) cs
    else (acc, c :: cs)

/-- Returns `true` when the input does not begin with a decimal digit. -/
def noDigitHead : List Char → Bool
  | [] => true
  | c :: _ => !isDigitCh c

/-- Parse a natural number (at least one digit required). -/
def readNat : List Char → Option (Nat × List Char)
  | [] => none
  | c :: cs =>
    if isDigitCh c then some (scanNat 0 (c :: cs)) else none

/-- Parse an integer: an optional minus sign then digits. -/
def readInt : List Char → Option (Int × List Char)
  | [] => none
  | c :: cs =>
    if c = '-' then (readNat cs).map (fun p => (-(p.1 : Int), p.2))
    else (readNat (c :: cs)).map (fun p => ((p.1 : Int), p.2))

/-! ## JSON string escaping (JSON.stringify / JSON.parse semantics) -/

/-- Hexadecimal digit character, lowercase, as JSON.stringify emits. -/
def hexCh (d : Nat) : Char :=
  if d < 10 then digitChar d else Char.ofNat (87 + d)

/-- Value of a (lowercase) hexadecimal digit character. -/
def hexValCh (c : Char) : Nat :=
  if c.toNat ≤ 57 then c.toNat - 48 else c.toNat - 87

/-- Hexadecimal digit test (digits and lowercase letters). -/
def isHexCh (c : Char) : Bool :=
  isDigitCh c || (97 ≤ c.toNat && c.toNat ≤ 102)

/-- JSON.stringify's escaping of one character: quote and backslash get a
backslash escape, the named control characters get their short escapes,
all other control characters become `\u00XX`, everything else is
emitted literally. -/
def escChar (c : Char) : List Char :=
  if c = '"' then ['\\', '"']
  else if c = '\\' then ['\\', '\\']
  else if c.toNat = 8 then ['\\', 'b']
  else if c.toNat = 9 then ['\\', 't']
  else if c.toNat = 10 then ['\\', 'n']
  else if c.toNat = 12 then ['\\', 'f']
  else if c.toNat = 13 then ['\\', 'r']
  else if c.toNat < 32 then
    '\\' :: 'u' :: '0' :: '0' :: [hexCh (c.toNat / 16), hexCh (c.toNat % 16)]
  else [c]

/-- Escape every character of a string body. -/
def escList : List Char → List Char
  | [] => []
  | c :: cs => escChar c ++ escList cs

/-- Single-character unescape map used by JSON.parse after a backslash. -/
def unescCh (e : Char) : Option Char :=
  if e = '"' then some '"'
  else if e = '\\' then some '\\'
  else if e = '/' then some '/'
  else if e = 'b' then some (Char.ofNat 8)
  else if e = 't' then some (Char.ofNat 9)
  else if e = 'n' then some (Char.ofNat 10)
  else if e = 'f' then some (Char.ofNat 12)
  else if e = 'r' then some (Char.ofNat 13)
  else none

/-- Parse a JSON string body (the opening quote already consumed),
returning the decoded characters and the input after the closing
quote. -/
def readStrBody : List Char → Option (List Char × List Char)
  | [] => none
  | c :: cs =>
    if c = '"' then some ([], cs)
    else if c = '\\' then
      match cs with
      | [] => none
      | e :: cs' =>
        if e = 'u' then
          match cs' with
          | a :: b :: x :: y :: cs'' =>
            if isHexCh a && isHexCh b && isHexCh x && isHexCh y then
              (readStrBody cs'').map (fun p =>
                (Char.ofNat (((hexValCh a * 16 + hexValCh b) * 16 + hexValCh x)
                  * 16 + hexValCh y) :: p.1, p.2))
            else none
          | _ => none
        else
          match unescCh e with
          | some ch => (readStrBody cs').map (fun p => (ch :: p.1, p.2))
          | none => none
    else (readStrBody cs).map (fun p => (c :: p.1, p.2))

/-! ## Data model: coins and caches (src/prefabs/cache.ts)

A `Coin` is `(i, j, serial)` with `serial : String` (the source mints
serials as template strings).  A `Cache` is `(i, j)` plus an ordered coin
list. -/

structure Coin where
  i : Int
  j : Int
  serial : String
deriving DecidableEq

structure Cache where
  i : Int
  j : Int
  coins : List Coin
deriving DecidableEq

/-- Source `Coin.toString`: the `i:j#serial` display format of src/prefabs/cache.ts. -/
def Coin.str (c : Coin) : String :=
  intStr c.i ++ ":" ++ intStr c.j ++ "#" ++ c.serial

/-! ## The memento codec (src/cache.ts `toMomento` / `fromMomento`)

`toMomento` is `JSON.stringify` of the object literal with fields
`i`, `j`, `coins`; field order follows the object literals in the source.
The fixed pieces of the JSON text are named character lists below
(`\x7b` and `\x7d` are the braces). -/

/-- The text `{"i":` opening a coin or cache object. -/
def litOpenI : List Char := ['\x7b', '"', 'i', '"', ':']

/-- The text `,"j":`. -/
def litJ : List Char := [',', '"', 'j', '"', ':']

/-- The text `,"serial":"`. -/
def litSerial : List Char := [',', '"', 's', 'e', 'r', 'i', 'a', 'l', '"', ':', '"']

/-- The text `,"coins":`. -/
def litCoins : List Char := [',', '"', 'c', 'o', 'i', 'n', 's', '"', ':']

/-- The closing brace. -/
def litClose : List Char := ['\x7d']

/-- JSON text of one coin, exactly as JSON.stringify renders it. -/
def encCoin (c : Coin) : List Char :=
  litOpenI ++ intChars c.i ++ litJ ++ intChars c.j ++ litSerial ++
    escList c.serial.data ++ '"' :: litClose

/-- JSON text of the tail of a coin array: `,coin` repeated, then `]`. -/
def encCoinsTail : List Coin → List Char
  | [] => [']']
  | c :: cs => ',' :: (encCoin c ++ encCoinsTail cs)

/-- JSON text of a coin array. -/
def encCoins : List Coin → List Char
  | [] => ['[', ']']
  | c :: cs => '[' :: (encCoin c ++ encCoinsTail cs)

/-- JSON text of a cache, exactly as `Cache.toMomento` produces it. -/
def encCache (c : Cache) : List Char :=
  litOpenI ++ intChars c.i ++ litJ ++ intChars c.j ++ litCoins ++
    encCoins c.coins ++ litClose

/-- Source `Cache.toMomento` of src/cache.ts: serialize the cache state to the
JSON string JSON.stringify produces for its `(i, j, coins)` object. -/
def Cache.toMomento (c : Cache) : String := String.mk (encCache c)

/-- Expect a fixed literal prefix, returning the input after it. -/
def readLit : List Char → List Char → Option (List Char)
  | [], cs => some cs
  | _ :: _, [] => none
  | l :: ls, c :: cs => if c = l then readLit ls cs else none

/-- Parse one coin object. -/
def readCoin (cs : List Char) : Option (Coin × List Char) := do
  let cs1 ← readLit litOpenI cs
  let p1 ← readInt cs1
  let cs2 ← readLit litJ p1.2
  let p2 ← readInt cs2
  let cs3 ← readLit litSerial p2.2
  let p3 ← readStrBody cs3
  let cs4 ← readLit litClose p3.2
  some (⟨p1.1, p2.1, String.mk p3.1⟩, cs4)

/-- Parse the tail of a coin array: either `]`, or `,` and a coin, then
recur.  `fuel` bounds the element count; callers pass the input length,
which always suffices. -/
def readCoinsTail (fuel : Nat) : List Char → Option (List Coin × List Char)
  | ']' :: rest => some ([], rest)
  | ',' :: rest =>
    match fuel with
    | 0 => none
    | fuel + 1 =>
      match readCoin rest with
      | some p => (readCoinsTail fuel p.2).map (fun q => (p.1 :: q.1, q.2))
      | none => none
  | _ => none

/-- Parse a coin array: a `[`, then either an immediate `]` or a first
coin followed by the array tail. -/
def readCoins (fuel : Nat) (cs : List Char) : Option (List Coin × List Char) :=
  match cs with
  | '[' :: rest =>
    if rest.head? = some ']' then some ([], rest.tail)
    else
      match readCoin rest with
      | some p => (readCoinsTail fuel p.2).map (fun q => (p.1 :: q.1, q.2))
      | none => none
  | _ => none

/-- Parse a cache object. -/
def readCache (cs : List Char) : Option (Cache × List Char) := do
  let cs1 ← readLit litOpenI cs
  let p1 ← readInt cs1
  let cs2 ← readLit litJ p1.2
  let p2 ← readInt cs2
  let cs3 ← readLit litCoins p2.2
  let p3 ← readCoins cs.length cs3
  let cs4 ← readLit litClose p3.2
  some (⟨p1.1, p2.1, p3.1⟩, cs4)

/-- Source `Cache.fromMomento` of src/cache.ts: `JSON.parse` the momento and take
its `i`, `j`, `coins` fields.  All fields of the receiver are overwritten,
so the receiver is irrelevant; a parse failure models the exception
`JSON.parse` throws on content this system did not produce. -/
def Cache.fromMomento (momento : String) : Option Cache :=
  match readCache momento.data with
  | some (c, []) => some c
  | _ => none

/-! ## Key-value maps with JS `Map` semantics

`Map.set` replaces the value of an existing key in place (keeping
insertion order) and appends new keys at the end; `Map.get`/`has` find
the (first) entry with the key. -/

/-- JS `Map.get`: the value stored under `k`, if any. -/
def lookupKV {α : Type} : List (String × α) → String → Option α
  | [], _ => none
  | p :: ps, k => if p.1 = k then some p.2 else lookupKV ps k

/-- JS `Map.set`: replace in place, or append a new entry. -/
def setKV {α : Type} : List (String × α) → String → α → List (String × α)
  | [], k, v => [(k, v)]
  | p :: ps, k, v => if p.1 = k then (k, v) :: ps else p :: setKV ps k v

/-! ## Cells, points, and the Board (src/prefabs/board.ts) -/

/-- A grid cell: a pair of signed integers. -/
structure Cell where
  i : Int
  j : Int
deriving DecidableEq

/-- A latitude/longitude pair.  Coordinates are rationals; the values the
game produces are integral multiples of 1e-4 offsets from decimal
literals, on which rational and float arithmetic agree. -/
structure Point where
  lat : ℚ
  lng : ℚ
deriving DecidableEq

/-- The key string `"i,j"`: both `[i, j].toString()` (knownCells, luck
keys) and the template literal `` `${i},${j}` `` (cacheStates) produce
exactly this text. -/
def cellKey (i j : Int) : String := intStr i ++ "," ++ intStr j

/-- Source `Math.trunc`: rounding toward zero. -/
def jsTrunc (q : ℚ) : Int := if q < 0 then ⌈q⌉ else ⌊q⌋

/-- The Board of src/prefabs/board.ts: tile geometry plus the two JS
Maps, `knownCells` (the flyweight canonical-cell map) and `cacheStates`
(the per-cell momento store). -/
structure Board where
  tileWidth : ℚ
  tileVisibilityRadius : Nat
  knownCells : List (String × Cell)
  cacheStates : List (String × String)
deriving DecidableEq

/-- Source `Board.getCanonicalCell`: look the cell's key up in `knownCells`,
inserting the given cell first when absent, and return the stored
canonical cell.  Returns the (possibly updated) board alongside. -/
def Board.getCanonicalCell (b : Board) (cell : Cell) : Cell × Board :=
  match lookupKV b.knownCells (cellKey cell.i cell.j) with
  | some c => (c, b)
  | none =>
    (cell, { b with
      knownCells := setKV b.knownCells (cellKey cell.i cell.j) cell })

/-- Source `Board.getCellForPoint` of src/prefabs/board.ts: `Math.floor` of
coordinate over tile width, canonicalized. -/
def Board.getCellForPoint (b : Board) (p : Point) : Cell × Board :=
  b.getCanonicalCell ⟨⌊p.lat / b.tileWidth⌋, ⌊p.lng / b.tileWidth⌋⟩

/-- Source `Board.getCellForPoint` of the earlier iteration src/src/board.ts,
which uses `Math.trunc` instead of `Math.floor`. -/
def Board.getCellForPointTrunc (b : Board) (p : Point) : Cell × Board :=
  b.getCanonicalCell ⟨jsTrunc (p.lat / b.tileWidth), jsTrunc (p.lng / b.tileWidth)⟩

/-- The loop offsets `-r, …, r` of the nested for loops in
`getCellsNearPoint`. -/
def offsets (r : Nat) : List Int :=
  (List.range (2 * r + 1)).map (fun k => (k : Int) - r)

/-- Source `Board.getCellsNearPoint`: canonicalize every cell within Chebyshev
distance `tileVisibilityRadius` of the point's cell, x (lat offset)
outer, y (lng offset) inner, in loop order. -/
def Board.getCellsNearPoint (b : Board) (p : Point) : List Cell × Board :=
  let (origin, b1) := b.getCellForPoint p
  (offsets b.tileVisibilityRadius).foldl (fun acc x =>
    (offsets b.tileVisibilityRadius).foldl (fun acc2 y =>
      let (c, b') := Board.getCanonicalCell acc2.2 ⟨origin.i + x, origin.j + y⟩
      (acc2.1 ++ [c], b')) acc) ([], b1)

/-- Source `Board.setCache`: serialize the cache and store the momento under
`"i,j"`, overwriting any prior entry. -/
def Board.setCache (b : Board) (i j : Int) (cache : Cache) : Board :=
  { b with cacheStates := setKV b.cacheStates (cellKey i j) cache.toMomento }

/-- Source `Board.getCache`: deserialize the stored momento into a fresh Cache,
or `none` when the cell has no entry.  A stored string that does not
parse models the exception `fromMomento`'s `JSON.parse` would throw; in
every reachable state the store only holds strings `toMomento` produced,
so that case does not arise. -/
def Board.getCache (b : Board) (i j : Int) : Option Cache :=
  match lookupKV b.cacheStates (cellKey i j) with
  | some m => Cache.fromMomento m
  | none => none

/-- One `{key, momento}` record of the persisted snapshot. -/
structure KM where
  key : String
  momento : String
deriving DecidableEq

/-- Source `Board.getCacheData`: `cacheStates.forEach((key, momento) => push
(\x7bkey, momento\x7d))`.  JS `Map.forEach` passes `(value, key)` to its
callback, so the parameter named `key` receives the stored momento string
and the parameter named `momento` receives the `"i,j"` map key: the two
record fields are swapped. -/
def Board.getCacheData (b : Board) : List KM :=
  b.cacheStates.map (fun p => ⟨p.2, p.1⟩)

/-- Source `Board.setCacheStates`: install every `{key, momento}` record into
`cacheStates` under its `key` field. -/
def Board.setCacheStates (b : Board) (caches : List KM) : Board :=
  { b with cacheStates :=
      caches.foldl (fun m km => setKV m km.key km.momento) b.cacheStates }

/-! ## Counting coins in the store -/

/-- Coins held by one stored momento string (0 for unparsable content,
which reachable states never contain). -/
def momentoCoins (s : String) : Nat :=
  match Cache.fromMomento s with
  | some c => c.coins.length
  | none => 0

/-- Total coins across all cache mementos in a store. -/
def storeCoins (m : List (String × String)) : Nat :=
  (m.map (fun p => momentoCoins p.2)).sum

/-! ## Gameplay constants (src/main.ts) -/

/-- Constant `TILE_WIDTH = 1e-4`. -/
def TILE_WIDTH : ℚ := 1 / 10000

/-- Constant `TILE_VISIBILITY_RADIUS = 9` (final iteration). -/
def TILE_VISIBILITY_RADIUS : Nat := 9

/-- Constant `CACHE_SPAWN_PROBABILITY = 0.1`. -/
def CACHE_SPAWN_PROBABILITY : ℚ := 1 / 10

/-! ## World generation (src/main.ts) -/

/-- The key `[i, j, "coins"].toString()` of the coin-count draw: the
spawn-decision key `[i, j].toString()` with the discriminator suffix
`,coins` appended. -/
def coinsKey (i j : Int) : String := cellKey i j ++ ",coins"

/-- Source `generateCoinsForCache`: `floor(luck("i,j,coins") × 8)` coins with
serials `0..count-1` (as strings), minted at `(i, j)`. -/
def generateCoinsForCache (hash : String → ℚ) (i j : Int) : List Coin :=
  let numCoins := (⌊hash (coinsKey i j) * 8⌋).toNat
  (List.range numCoins).map (fun n => ⟨i, j, natStr n⟩)

/-- Source `spawnCache`: build the cache with its generated coins and write it
to the board (display effects are out of scope). -/
def spawnCache (hash : String → ℚ) (b : Board) (i j : Int) : Board :=
  b.setCache i j ⟨i, j, generateCoinsForCache hash i j⟩

/-- The per-cell body of `showNearbyCaches`: an existing cache is only
redisplayed; an absent one spawns exactly when
`luck("i,j") < CACHE_SPAWN_PROBABILITY`. -/
def processCell (hash : String → ℚ) (prob : ℚ) (b : Board) (cell : Cell) :
    Board :=
  match b.getCache cell.i cell.j with
  | some _ => b
  | none =>
    if hash (cellKey cell.i cell.j) < prob then spawnCache hash b cell.i cell.j
    else b

/-- Source `showNearbyCaches`: process every visible cell in order. -/
def showNearbyCaches (hash : String → ℚ) (prob : ℚ) (b : Board) (p : Point) :
    Board :=
  let (cells, b1) := b.getCellsNearPoint p
  cells.foldl (processCell hash prob) b1

/-! ## The aggregate game state and the player operations -/

/-- The in-memory game state: the board (canonical cells + momento
store), and the player's location, inventory and move history. -/
structure GameState where
  board : Board
  location : Point
  inventory : List Coin
  moveHistory : List Point
deriving DecidableEq

/-- Total coins across all cache mementos plus the inventory. -/
def totalCoins (s : GameState) : Nat :=
  storeCoins s.board.cacheStates + s.inventory.length

/-- Source `Player.moveTo`: update the location and append to the move
history. -/
def moveTo (s : GameState) (p : Point) : GameState :=
  { s with location := p, moveHistory := s.moveHistory ++ [p] }

/-- Source `collectCoin` of src/main.ts: push the coin onto the inventory,
remove every coin with the same serial from the (popup's) cache object,
and write the mutated cache back to the board under the cache's cell. -/
def collectCoin (s : GameState) (cache : Cache) (coin : Coin) : GameState :=
  { s with
    inventory := s.inventory ++ [coin],
    board := s.board.setCache cache.i cache.j
      { cache with coins := cache.coins.filter (fun c => c.serial != coin.serial) } }

/-- Source `depositCoin` of src/main.ts: guarded on a non-empty inventory, pop
the most recently collected coin, append it to the cache's coin list, and
write the cache back; on an empty inventory nothing happens. -/
def depositCoin (s : GameState) (cache : Cache) : GameState :=
  match s.inventory.getLast? with
  | none => s
  | some coin =>
    { s with
      inventory := s.inventory.dropLast,
      board := s.board.setCache cache.i cache.j
        { cache with coins := cache.coins ++ [coin] } }

/-- Source `Player.depositCoin` of src/prefabs/player.ts: `inventory.pop()!`.
JS `pop` on an empty array returns `undefined` (here `none`) and leaves
the array empty; the `!` is only a type assertion, not a runtime check. -/
def playerDepositCoin (inv : List Coin) : Option Coin × List Coin :=
  (inv.getLast?, inv.dropLast)

/-! ## Reset (src/gamestate.ts `GameState.reset`) -/

/-- The `inventory.forEach` loop of `reset`: for each coin, look up its
origin cache `getCache(coin.i, coin.j)`, push the coin into it, and
`setCache` it back.  When the lookup yields `null`, the optional-chained
push is skipped and `setCache(i, j, originalCache!)` dereferences null:
the iteration faults (`none`). -/
def resetGo (b : Board) : List Coin → Option Board
  | [] => some b
  | coin :: rest =>
    match b.getCache coin.i coin.j with
    | some c =>
      resetGo (b.setCache coin.i coin.j { c with coins := c.coins ++ [coin] })
        rest
    | none => none

/-- Source `GameState.reset`: return every inventory coin to its origin cache,
then reset the player (location to the given origin, inventory and move
history cleared).  `none` models the run faulting inside the loop. -/
def GameState.reset (s : GameState) (initialLocation : Point) :
    Option GameState :=
  (resetGo s.board s.inventory).map (fun b =>
    { board := b, location := initialLocation, inventory := [],
      moveHistory := [] })

/-! ## Persistence records (src/main.ts save/load) -/

/-- The persisted snapshot's logical content: the record
`\x7bplayerLocation, playerInventory, playerMoveHistory, caches\x7d`
that `saveGameState` stringifies into the single storage key. -/
structure GameRecord where
  playerLocation : Point
  playerInventory : List Coin
  playerMoveHistory : List Point
  caches : List KM
deriving DecidableEq

/-- Source `saveGameState`: the record persisted under the fixed storage key
(its `caches` field is whatever `getCacheData` returned). -/
def saveGameState (s : GameState) : GameRecord :=
  ⟨s.location, s.inventory, s.moveHistory, s.board.getCacheData⟩

/-! ## Reachable game states -/

/-- The board a fresh session constructs. -/
def initialBoard : Board := ⟨TILE_WIDTH, TILE_VISIBILITY_RADIUS, [], []⟩

/-- In-session reachability from a fresh start (no prior persisted
record), parametrized by the hash function.  The relation
over-approximates the event handlers: `spawn` may fire at any cell whose
spawn guard holds (in the game it fires for the visible cells inside
`showNearbyCaches`); `collect` and `deposit` take the popup's cache view
as an argument, constrained only by what holds of every view the game
hands out (a collected coin was minted by some spawn at its origin cell,
which therefore has a store entry).  Every state a session started fresh
reaches is covered; states reached after restoring a persisted record
are covered by `ReachL` below, which adds the `loadGameState`
transition. -/
inductive Reach (hash : String → ℚ) : GameState → Prop
  | init (origin : Point) :
      Reach hash ⟨initialBoard, origin, [], [origin]⟩
  | move (s : GameState) (p : Point) :
      Reach hash s → Reach hash (moveTo s p)
  | spawn (s : GameState) (i j : Int) :
      Reach hash s →
      s.board.getCache i j = none →
      hash (cellKey i j) < CACHE_SPAWN_PROBABILITY →
      Reach hash { s with board := spawnCache hash s.board i j }
  | collect (s : GameState) (cache : Cache) (coin : Coin) :
      Reach hash s →
      coin ∈ cache.coins →
      (lookupKV s.board.cacheStates (cellKey coin.i coin.j)).isSome →
      Reach hash (collectCoin s cache coin)
  | deposit (s : GameState) (cache : Cache) :
      Reach hash s → Reach hash (depositCoin s cache)
  | doReset (s s' : GameState) (origin : Point) :
      Reach hash s → s.reset origin = some s' → Reach hash s'

/-- Every value in the store parses back to a cache (true of every
reachable store, since all writes go through `toMomento`). -/
def StoreDecodable (m : List (String × String)) : Prop :=
  ∀ p ∈ m, ∃ c, Cache.fromMomento p.2 = some c

/-- The store holds, under key `k`, a memento whose cache contains
`coin`. -/
def StoreHasCoin (m : List (String × String)) (k : String) (coin : Coin) :
    Prop :=
  ∃ mo c, lookupKV m k = some mo ∧ Cache.fromMomento mo = some c ∧
    coin ∈ c.coins

/-- The reachability invariant: every stored momento is decodable and
every inventory coin's origin cell has a store entry. -/
def Inv (s : GameState) : Prop :=
  StoreDecodable s.board.cacheStates ∧
  ∀ coin ∈ s.inventory,
    (lookupKV s.board.cacheStates (cellKey coin.i coin.j)).isSome

/-! ## The persisted-record parser (src/main.ts `loadGameState`)

`loadGameState` runs `JSON.parse` on the stored string; the model's
parser accepts exactly the texts `JSON.stringify` produces for the
record schema (location, inventory, move history, caches).  `none`
models the `SyntaxError` that `JSON.parse` throws; `some none` models a
record parsing to a falsy value (caught by the source's
`if (!state) return`). -/

/-- Consume a maximal digit run, keeping the digits. -/
def takeDigits : List Char → List Char × List Char
  | [] => ([], [])
  | c :: cs =>
    if isDigitCh c then
      let (ds, r) := takeDigits cs
      (c :: ds, r)
    else ([], c :: cs)

/-- Value of a digit run. -/
def digitsVal (ds : List Char) : Nat :=
  ds.foldl (fun a c => a * 10 + (c.toNat - 48)) 0

/-- Parse a decimal number (optional sign, integer part, optional
fraction) into an exact rational. -/
def readNum (cs : List Char) : Option (ℚ × List Char) :=
  match cs with
  | [] => none
  | c :: cs' =>
    let (neg, cs₀) := if c = '-' then (true, cs') else (false, c :: cs')
    match cs₀ with
    | [] => none
    | d :: _ =>
      if isDigitCh d then
        let (ids, r1) := takeDigits cs₀
        match r1 with
        | '.' :: r2 =>
          let (fds, r3) := takeDigits r2
          let mag : ℚ := (digitsVal ids : ℚ) +
            (digitsVal fds : ℚ) / ((10 : ℚ) ^ fds.length)
          some (if neg then -mag else mag, r3)
        | _ =>
          some (if neg then -(digitsVal ids : ℚ) else (digitsVal ids : ℚ), r1)
      else none

/-- The text `\x7b"lat":`. -/
def litLat : List Char := ['\x7b', '"', 'l', 'a', 't', '"', ':']

/-- The text `,"lng":`. -/
def litLng : List Char := [',', '"', 'l', 'n', 'g', '"', ':']

/-- Parse a `\x7b"lat":..,"lng":..\x7d` object. -/
def readPoint (cs : List Char) : Option (Point × List Char) := do
  let cs1 ← readLit litLat cs
  let p1 ← readNum cs1
  let cs2 ← readLit litLng p1.2
  let p2 ← readNum cs2
  let cs3 ← readLit litClose p2.2
  some (⟨p1.1, p2.1⟩, cs3)

/-- Parse the tail of a point array. -/
def readPtsTail (fuel : Nat) : List Char → Option (List Point × List Char)
  | ']' :: rest => some ([], rest)
  | ',' :: rest =>
    match fuel with
    | 0 => none
    | fuel + 1 =>
      match readPoint rest with
      | some p => (readPtsTail fuel p.2).map (fun q => (p.1 :: q.1, q.2))
      | none => none
  | _ => none

/-- Parse a point array. -/
def readPts (fuel : Nat) (cs : List Char) : Option (List Point × List Char) :=
  match cs with
  | '[' :: rest =>
    if rest.head? = some ']' then some ([], rest.tail)
    else
      match readPoint rest with
      | some p => (readPtsTail fuel p.2).map (fun q => (p.1 :: q.1, q.2))
      | none => none
  | _ => none

/-- The text `\x7b"key":"`. -/
def litKey : List Char := ['\x7b', '"', 'k', 'e', 'y', '"', ':', '"']

/-- The text `,"momento":"`. -/
def litMomento : List Char :=
  [',', '"', 'm', 'o', 'm', 'e', 'n', 't', 'o', '"', ':', '"']

/-- Parse a `\x7b"key":"..","momento":".."\x7d` record. -/
def readKM (cs : List Char) : Option (KM × List Char) := do
  let cs1 ← readLit litKey cs
  let p1 ← readStrBody cs1
  let cs2 ← readLit litMomento p1.2
  let p2 ← readStrBody cs2
  let cs3 ← readLit litClose p2.2
  some (⟨String.mk p1.1, String.mk p2.1⟩, cs3)

/-- Parse the tail of a `\x7bkey, momento\x7d` array. -/
def readKMsTail (fuel : Nat) : List Char → Option (List KM × List Char)
  | ']' :: rest => some ([], rest)
  | ',' :: rest =>
    match fuel with
    | 0 => none
    | fuel + 1 =>
      match readKM rest with
      | some p => (readKMsTail fuel p.2).map (fun q => (p.1 :: q.1, q.2))
      | none => none
  | _ => none

/-- Parse a `\x7bkey, momento\x7d` array. -/
def readKMs (fuel : Nat) (cs : List Char) : Option (List KM × List Char) :=
  match cs with
  | '[' :: rest =>
    if rest.head? = some ']' then some ([], rest.tail)
    else
      match readKM rest with
      | some p => (readKMsTail fuel p.2).map (fun q => (p.1 :: q.1, q.2))
      | none => none
  | _ => none

/-- The text `\x7b"playerLocation":`. -/
def litRecOpen : List Char :=
  ['\x7b', '"', 'p', 'l', 'a', 'y', 'e', 'r', 'L', 'o', 'c', 'a', 't', 'i',
    'o', 'n', '"', ':']

/-- The text `,"playerInventory":`. -/
def litInv : List Char :=
  [',', '"', 'p', 'l', 'a', 'y', 'e', 'r', 'I', 'n', 'v', 'e', 'n', 't',
    'o', 'r', 'y', '"', ':']

/-- The text `,"playerMoveHistory":`. -/
def litHist : List Char :=
  [',', '"', 'p', 'l', 'a', 'y', 'e', 'r', 'M', 'o', 'v', 'e', 'H', 'i',
    's', 't', 'o', 'r', 'y', '"', ':']

/-- The text `,"caches":`. -/
def litCaches : List Char :=
  [',', '"', 'c', 'a', 'c', 'h', 'e', 's', '"', ':']

/-- Parse the whole persisted record. -/
def readRecord (cs : List Char) : Option (GameRecord × List Char) := do
  let cs1 ← readLit litRecOpen cs
  let p1 ← readPoint cs1
  let cs2 ← readLit litInv p1.2
  let p2 ← readCoins cs.length cs2
  let cs3 ← readLit litHist p2.2
  let p3 ← readPts cs.length cs3
  let cs4 ← readLit litCaches p3.2
  let p4 ← readKMs cs.length cs4
  let cs5 ← readLit litClose p4.2
  some (⟨p1.1, p2.1, p3.1, p4.1⟩, cs5)

/-- JSON insignificant whitespace: space, tab, line feed, carriage
return. -/
def isWsCh (c : Char) : Bool :=
  c = ' ' || c = '\t' || c = '\n' || c = '\r'

/-- Drop leading JSON whitespace. -/
def skipWs (l : List Char) : List Char := l.dropWhile isWsCh

/-- Holds when the remainder is only JSON whitespace. -/
def allWs (l : List Char) : Bool := l.all isWsCh

/-- Strict JSON number recognizer used by the falsy test: optional
minus, the integer part (`0`, or a digit run not starting with `0`),
then any well-formed fraction and exponent; reports whether the
number's exact value is zero, which holds precisely when every
mantissa digit is `0` (a finite exponent never changes that).  A
malformed fraction or exponent tail is left unconsumed, to be rejected
by the caller's end-of-input check — exactly where `JSON.parse` throws
its `SyntaxError`. -/
def readNumZero (l : List Char) : Option (Bool × List Char) :=
  let l1 := match l with
    | '-' :: t => t
    | _ => l
  match l1 with
  | [] => none
  | c :: t =>
    if isDigitCh c then
      let (ids, r1) := if c = '0' then (['0'], t) else takeDigits (c :: t)
      let (fds, r2) :=
        match r1 with
        | '.' :: r =>
          (match takeDigits r with
           | ([], _) => (([] : List Char), r1)
           | (ds, rr) => (ds, rr))
        | _ => (([] : List Char), r1)
      let r3 :=
        match r2 with
        | e :: r =>
          if e = 'e' ∨ e = 'E' then
            let rs := match r with
              | s :: rr => if s = '+' ∨ s = '-' then rr else s :: rr
              | [] => ([] : List Char)
            match takeDigits rs with
            | ([], _) => r2
            | (_, rr) => rr
          else r2
        | [] => r2
      some ((ids ++ fds).all (fun d => d == '0'), r3)
    else none

/-- The texts `JSON.parse` accepts with a falsy result — these satisfy
the source's `if (!state) return` guard: the literals `null` and
`false`, the empty string, and any number equal to zero, each
surrounded by insignificant whitespace.  (`true`, nonzero numbers,
nonempty strings, arrays and objects are truthy; numbers are read
exactly, as everywhere in this model.) -/
def jsonFalsy (s : String) : Bool :=
  let l := skipWs s.data
  if l.take 4 = ['n', 'u', 'l', 'l'] ∧ allWs (l.drop 4) then true
  else if l.take 5 = ['f', 'a', 'l', 's', 'e'] ∧ allWs (l.drop 5) then true
  else if l.take 2 = ['"', '"'] ∧ allWs (l.drop 2) then true
  else
    match readNumZero l with
    | some (z, r) => z && allWs r
    | none => false

/-- Source `JSON.parse` of the persisted record text: `none` is a thrown
`SyntaxError`; `some none` a successful parse to a falsy value
(`null`, `false`, a zero number, or the empty string), which the
source's `if (!state) return` accepts silently. -/
def readGameRecord (s : String) : Option (Option GameRecord) :=
  if jsonFalsy s then some none
  else
    match readRecord s.data with
    | some (r, []) => some (some r)
    | _ => none

/-- Source `loadGameState` of src/main.ts: a missing record leaves the fresh
state untouched; a present record is `JSON.parse`d — without any
try/catch, so a `SyntaxError` propagates (`Except.error`); a parsed
falsy value returns early; otherwise the player fields are restored and
every `(key, momento)` record is bulk-installed via `setCacheStates`. -/
def loadGameState (storage : Option String) (s : GameState) :
    Except Unit GameState :=
  match storage with
  | none => .ok s
  | some str =>
    match readGameRecord str with
    | none => .error ()
    | some none => .ok s
    | some (some r) =>
      .ok { board := s.board.setCacheStates r.caches,
            location := r.playerLocation,
            inventory := r.playerInventory,
            moveHistory := r.playerMoveHistory }

/-! ## Program reachability across session restarts -/

/-- Reachability including session restarts: the in-session steps of
`Reach`, plus `load` — the game re-saves on every state change, so a
fresh session may begin by running `loadGameState` on the persisted
record of any previously reached state.  The side condition
`readGameRecord t = some (some (saveGameState s))` states that the
stored text `t` denotes the record `saveGameState` persists for `s`
(the parser accepts exactly the texts `JSON.stringify` emits for the
record schema, so such a `t` is the persisted text). -/
inductive ReachL (hash : String → ℚ) : GameState → Prop
  | init (origin : Point) :
      ReachL hash ⟨initialBoard, origin, [], [origin]⟩
  | move (s : GameState) (p : Point) :
      ReachL hash s → ReachL hash (moveTo s p)
  | spawn (s : GameState) (i j : Int) :
      ReachL hash s →
      s.board.getCache i j = none →
      hash (cellKey i j) < CACHE_SPAWN_PROBABILITY →
      ReachL hash { s with board := spawnCache hash s.board i j }
  | collect (s : GameState) (cache : Cache) (coin : Coin) :
      ReachL hash s →
      coin ∈ cache.coins →
      (lookupKV s.board.cacheStates (cellKey coin.i coin.j)).isSome →
      ReachL hash (collectCoin s cache coin)
  | deposit (s : GameState) (cache : Cache) :
      ReachL hash s → ReachL hash (depositCoin s cache)
  | doReset (s s' : GameState) (origin : Point) :
      ReachL hash s → s.reset origin = some s' → ReachL hash s'
  | load (s s' : GameState) (t : String) (origin : Point) :
      ReachL hash s →
      readGameRecord t = some (some (saveGameState s)) →
      loadGameState (some t) ⟨initialBoard, origin, [], [origin]⟩ =
        Except.ok s' →
      ReachL hash s'

/-! ## Auxiliary facts for the flyweight map -/

/-- The keys of a map are pairwise distinct ("at most one entry per
key"). -/
def KeysNodup {α : Type} (m : List (String × α)) : Prop :=
  (m.map Prod.fst).Nodup

/-! ## Concrete fixtures used by the witnesses -/

/-- A deterministic hash giving the spawn draw 0 at cell `(0,0)` and 1/2
elsewhere (so the cell spawns with 4 coins). -/
def hashW : String → ℚ := fun k => if k = cellKey 0 0 then 0 else 1 / 2

/-- A concrete starting point. -/
def pointW : Point := ⟨0, 0⟩

/-- A fresh session's state. -/
def stateW0 : GameState := ⟨initialBoard, pointW, [], [pointW]⟩

/-- After the spawn at `(0,0)`. -/
def stateW1 : GameState :=
  { stateW0 with board := spawnCache hashW stateW0.board 0 0 }

/-- The four coins `hashW` mints at `(0,0)`
(`floor(1/2 × 8) = 4`, serials `"0".."3"`). -/
def coinsW : List Coin := [⟨0, 0, "0"⟩, ⟨0, 0, "1"⟩, ⟨0, 0, "2"⟩, ⟨0, 0, "3"⟩]

/-- The popup's view of the spawned cache. -/
def cacheW : Cache := ⟨0, 0, coinsW⟩

/-- The coin with serial `"1"` of the spawned cache. -/
def coinW : Coin := ⟨0, 0, "1"⟩

/-- After collecting that coin. -/
def stateW2 : GameState := collectCoin stateW1 cacheW coinW

/-- A distant location: its cell `(10000, 0)` lies far outside the
visibility radius of cell `(0,0)`, so a session restored there never
re-spawns the coin's origin cell. -/
def pointL : Point := ⟨1, 0⟩

/-- Session 1's final state: after the collect the player moves far
away (the game re-saves on every change, so this state's record is the
one persisted). -/
def stateW3 : GameState := moveTo stateW2 pointL

/-- The momento text stored at cell `(0,0)` after the collect (coins
`"0"`, `"2"`, `"3"`). -/
def momentoL : String :=
  Cache.toMomento ⟨0, 0, coinsW.filter (fun c => c.serial != "1")⟩

/-- The record `saveGameState` persists for `stateW3`: because of the
`getCacheData` swap, its single caches entry carries the momento text
in the `key` field and the cell name `"0,0"` in the `momento` field. -/
def recL : GameRecord :=
  ⟨pointL, [coinW], [pointW, pointL], [⟨momentoL, cellKey 0 0⟩]⟩

/-- The `JSON.stringify` text of `recL`: the momento is embedded as a
string value, so `escList` escapes its quotes. -/
def tL : String :=
  "\x7b\"playerLocation\":\x7b\"lat\":1,\"lng\":0\x7d,\"playerInventory\":[\x7b\"i\":0,\"j\":0,\"serial\":\"1\"\x7d],\"playerMoveHistory\":[\x7b\"lat\":0,\"lng\":0\x7d,\x7b\"lat\":1,\"lng\":0\x7d],\"caches\":[\x7b\"key\":\""
    ++ String.mk (escList momentoL.data) ++ "\",\"momento\":\"0,0\"\x7d]\x7d"

/-- The state a reloaded session starts from: `loadGameState` on `tL`
restores the player fields and installs the swapped pair into the
store — nothing sits under the cell key `"0,0"`. -/
def stateL2 : GameState :=
  ⟨initialBoard.setCacheStates recL.caches, pointL, [coinW],
    [pointW, pointL]⟩

/-- The C6 scenario's cache `[#0, #1, #2]` at cell `(1,2)`. -/
def cacheC6 : Cache := ⟨1, 2, [⟨1, 2, "0"⟩, ⟨1, 2, "1"⟩, ⟨1, 2, "2"⟩]⟩

/-- The C6 starting state: that cache stored, empty inventory. -/
def stateC6 : GameState :=
  ⟨initialBoard.setCache 1 2 cacheC6, ⟨0, 0⟩, [], []⟩

/-- After collecting coin `#1` from the popup's view. -/
def stateC6a : GameState := collectCoin stateC6 cacheC6 ⟨1, 2, "1"⟩

/-- The popup's cache object after the collect mutated it. -/
def cacheC6a : Cache :=
  { cacheC6 with coins := cacheC6.coins.filter (fun c => c.serial != "1") }

/-- After depositing back into the same popup. -/
def stateC6b : GameState := depositCoin stateC6a cacheC6a

/-- A one-cache store fixture at cell `(1,2)` for the save/load claims. -/
def cacheC2 : Cache := ⟨1, 2, [⟨1, 2, "0"⟩]⟩

/-- Game state holding only `cacheC2`. -/
def stateC2 : GameState :=
  ⟨initialBoard.setCache 1 2 cacheC2, ⟨0, 0⟩, [], []⟩

/-- A minimal parsable persisted record text. -/
def recTextW : String :=
  "\x7b\"playerLocation\":\x7b\"lat\":0,\"lng\":0\x7d,\"playerInventory\":[],\"playerMoveHistory\":[],\"caches\":[]\x7d"

/-- The record `recTextW` denotes. -/
def recW : GameRecord := ⟨⟨0, 0⟩, [], [], []⟩

/-- The scenario point of §8: `(36.9895, -122.0628)`. -/
def pointC4 : Point := ⟨369895 / 10000, -1220628 / 10000⟩

/-- A point whose longitude quotient is `-1220628.5`: floor and
truncation disagree there. -/
def pointC4bad : Point := ⟨369895 / 10000, -12206285 / 100000⟩

/-! ## Proofs -/

theorem natCharsAux_congr : ∀ f₁ f₂ n : Nat, n < f₁ → n < f₂ →
    natCharsAux f₁ n = natCharsAux f₂ n := by
  intro f₁
  induction f₁ with
  | zero => intro f₂ n h; omega
  | succ k ih =>
    intro f₂ n h₁ h₂
    match f₂, h₂ with
    | m + 1, _ =>
      show natCharsAux (k + 1) n = natCharsAux (m + 1) n
      unfold natCharsAux
      by_cases hn : n < 10
      · simp [hn]
      · have hdiv : n / 10 < n := Nat.div_lt_self (by omega) (by omega)
        simp only [hn, if_false]
        rw [ih m (n / 10) (by omega) (by omega)]

/-- One-step unfolding of `natChars`. -/
theorem natChars_eq (n : Nat) :
    natChars n = if n < 10 then [digitChar n]
    else natChars (n / 10) ++ [digitChar (n % 10)] := by
  show natCharsAux (n + 1) n = _
  unfold natCharsAux
  by_cases hn : n < 10
  · simp [hn]
  · have hdiv : n / 10 < n := Nat.div_lt_self (by omega) (by omega)
    simp only [hn, if_false]
    rw [natCharsAux_congr n (n / 10 + 1) (n / 10) (by omega) (by omega)]
    rfl

theorem digitChar_spec : ∀ d < 10, isDigitCh (digitChar d) = true ∧
    (digitChar d).toNat = 48 + d := by decide

/-- Lemma: `natChars` always begins with a decimal digit. -/
theorem natChars_head_digit (n : Nat) :
    ∃ c cs, natChars n = c :: cs ∧ isDigitCh c = true := by
  induction n using Nat.strong_induction_on with
  | _ n ih =>
    rw [natChars_eq]
    by_cases hn : n < 10
    · exact ⟨digitChar n, [], by simp [hn], (digitChar_spec n hn).1⟩
    · have hdiv : n / 10 < n := Nat.div_lt_self (by omega) (by omega)
      obtain ⟨c, cs, hc, hd⟩ := ih (n / 10) hdiv
      exact ⟨c, cs ++ [digitChar (n % 10)], by simp [hn, hc], hd⟩

theorem scanNat_stop (acc : Nat) (rest : List Char)
    (h : noDigitHead rest = true) : scanNat acc rest = (acc, rest) := by
  cases rest with
  | nil => rfl
  | cons c cs =>
    simp only [noDigitHead, Bool.not_eq_true'] at h
    simp [scanNat, h]

theorem scanNat_natChars (n : Nat) : ∀ acc rest,
    scanNat acc (natChars n ++ rest) =
      scanNat (acc * 10 ^ (natChars n).length + n) rest := by
  induction n using Nat.strong_induction_on with
  | _ n ih =>
    intro acc rest
    by_cases hn : n < 10
    · rw [natChars_eq]
      simp only [hn, if_true, List.cons_append, List.nil_append]
      rw [scanNat]
      simp [(digitChar_spec n hn).1, (digitChar_spec n hn).2]
    · have hdiv : n / 10 < n := Nat.div_lt_self (by omega) (by omega)
      rw [natChars_eq]
      simp only [hn, if_false, List.append_assoc, List.cons_append,
        List.nil_append]
      rw [ih (n / 10) hdiv]
      rw [scanNat]
      have h10 : n % 10 < 10 := Nat.mod_lt _ (by omega)
      simp only [(digitChar_spec (n % 10) h10).1, if_true,
        (digitChar_spec (n % 10) h10).2]
      have harith :
          (acc * 10 ^ (natChars (n / 10)).length + n / 10) * 10 +
            (48 + n % 10 - 48) =
          acc * 10 ^ (natChars (n / 10) ++ [digitChar (n % 10)]).length + n := by
        simp only [List.length_append, List.length_cons, List.length_nil]
        have := Nat.div_add_mod n 10
        ring_nf
        omega
      rw [harith]

theorem readNat_natChars (n : Nat) (rest : List Char)
    (h : noDigitHead rest = true) :
    readNat (natChars n ++ rest) = some (n, rest) := by
  obtain ⟨c, cs, hc, hd⟩ := natChars_head_digit n
  rw [hc]
  simp only [List.cons_append, readNat, hd, if_true]
  rw [← List.cons_append, ← hc, scanNat_natChars]
  simp [scanNat_stop _ _ h]

theorem digit_ne_minus {c : Char} (h : isDigitCh c = true) : c ≠ '-' := by
  intro hEq
  subst hEq
  simp [isDigitCh] at h

theorem readInt_intChars (i : Int) (rest : List Char)
    (h : noDigitHead rest = true) :
    readInt (intChars i ++ rest) = some (i, rest) := by
  by_cases hi : i < 0
  · simp only [intChars, hi, if_true, List.cons_append, readInt]
    rw [readNat_natChars i.natAbs rest h]
    simp only [Option.map_some']
    congr 1
    rw [Prod.ext_iff]
    refine ⟨?_, rfl⟩
    omega
  · simp only [intChars, hi, if_false]
    obtain ⟨c, cs, hc, hd⟩ := natChars_head_digit i.natAbs
    rw [hc]
    simp only [List.cons_append, readInt, digit_ne_minus hd, if_false]
    rw [← List.cons_append, ← hc, readNat_natChars i.natAbs rest h]
    simp only [Option.map_some']
    congr 1
    rw [Prod.ext_iff]
    refine ⟨?_, rfl⟩
    omega

theorem hexCh_spec : ∀ d < 16, isHexCh (hexCh d) = true ∧
    hexValCh (hexCh d) = d := by decide

theorem readStrBody_quote (rest : List Char) :
    readStrBody ('"' :: rest) = some ([], rest) := by
  rw [readStrBody.eq_def]
  simp

theorem readStrBody_lit (c : Char) (h1 : c ≠ '"') (h2 : c ≠ '\\')
    (cs : List Char) : readStrBody (c :: cs) =
      (readStrBody cs).map (fun p => (c :: p.1, p.2)) := by
  rw [readStrBody.eq_def]
  simp [h1, h2]

theorem readStrBody_esc (e ch : Char) (h : unescCh e = some ch)
    (he : e ≠ 'u') (cs : List Char) : readStrBody ('\\' :: e :: cs) =
      (readStrBody cs).map (fun p => (ch :: p.1, p.2)) := by
  rw [readStrBody.eq_def]
  simp [he, h]

theorem readStrBody_hex (a b x y : Char)
    (h : (isHexCh a && isHexCh b && isHexCh x && isHexCh y) = true)
    (cs : List Char) : readStrBody ('\\' :: 'u' :: a :: b :: x :: y :: cs) =
      (readStrBody cs).map (fun p =>
        (Char.ofNat (((hexValCh a * 16 + hexValCh b) * 16 + hexValCh x)
          * 16 + hexValCh y) :: p.1, p.2)) := by
  rw [readStrBody.eq_def]
  simp [h]

theorem readStrBody_escList (s : List Char) : ∀ rest : List Char,
    readStrBody (escList s ++ '"' :: rest) = some (s, rest) := by
  induction s with
  | nil => intro rest; exact readStrBody_quote rest
  | cons c s' ih =>
    intro rest
    show readStrBody (escChar c ++ escList s' ++ '"' :: rest) = _
    unfold escChar
    by_cases h1 : c = '"'
    · subst h1
      rw [if_pos rfl]
      simp only [List.cons_append, List.nil_append]
      rw [readStrBody_esc '"' '"' (by decide) (by decide), ih rest]
      rfl
    · rw [if_neg h1]
      by_cases h2 : c = '\\'
      · subst h2
        rw [if_pos rfl]
        simp only [List.cons_append, List.nil_append]
        rw [readStrBody_esc '\\' '\\' (by decide) (by decide), ih rest]
        rfl
      · rw [if_neg h2]
        by_cases h3 : c.toNat = 8
        · rw [if_pos h3]
          have hc : Char.ofNat 8 = c := by rw [← h3]; exact Char.ofNat_toNat c
          simp only [List.cons_append, List.nil_append]
          rw [readStrBody_esc 'b' (Char.ofNat 8) (by decide) (by decide),
            ih rest, hc]
          rfl
        · rw [if_neg h3]
          by_cases h4 : c.toNat = 9
          · rw [if_pos h4]
            have hc : Char.ofNat 9 = c := by rw [← h4]; exact Char.ofNat_toNat c
            simp only [List.cons_append, List.nil_append]
            rw [readStrBody_esc 't' (Char.ofNat 9) (by decide) (by decide),
              ih rest, hc]
            rfl
          · rw [if_neg h4]
            by_cases h5 : c.toNat = 10
            · rw [if_pos h5]
              have hc : Char.ofNat 10 = c := by
                rw [← h5]; exact Char.ofNat_toNat c
              simp only [List.cons_append, List.nil_append]
              rw [readStrBody_esc 'n' (Char.ofNat 10) (by decide) (by decide),
                ih rest, hc]
              rfl
            · rw [if_neg h5]
              by_cases h6 : c.toNat = 12
              · rw [if_pos h6]
                have hc : Char.ofNat 12 = c := by
                  rw [← h6]; exact Char.ofNat_toNat c
                simp only [List.cons_append, List.nil_append]
                rw [readStrBody_esc 'f' (Char.ofNat 12) (by decide)
                  (by decide), ih rest, hc]
                rfl
              · rw [if_neg h6]
                by_cases h7 : c.toNat = 13
                · rw [if_pos h7]
                  have hc : Char.ofNat 13 = c := by
                    rw [← h7]; exact Char.ofNat_toNat c
                  simp only [List.cons_append, List.nil_append]
                  rw [readStrBody_esc 'r' (Char.ofNat 13) (by decide)
                    (by decide), ih rest, hc]
                  rfl
                · rw [if_neg h7]
                  by_cases h8 : c.toNat < 32
                  · rw [if_pos h8]
                    have hdiv := hexCh_spec (c.toNat / 16) (by omega)
                    have hmod := hexCh_spec (c.toNat % 16)
                      (Nat.mod_lt _ (by omega))
                    simp only [List.cons_append, List.nil_append]
                    rw [readStrBody_hex '0' '0' (hexCh (c.toNat / 16))
                      (hexCh (c.toNat % 16))
                      (by rw [hdiv.1, hmod.1]; decide) (escList s' ++ '"' :: rest),
                      ih rest]
                    have hv0 : hexValCh '0' = 0 := by decide
                    simp only [Option.map_some', hv0, hdiv.2, hmod.2]
                    have hval : ((0 * 16 + 0) * 16 + c.toNat / 16) * 16 +
                        c.toNat % 16 = c.toNat := by omega
                    rw [hval, Char.ofNat_toNat]
                  · rw [if_neg h8]
                    simp only [List.cons_append, List.nil_append]
                    rw [readStrBody_lit c h1 h2, ih rest]
                    rfl

theorem readLit_append (lit : List Char) : ∀ rest : List Char,
    readLit lit (lit ++ rest) = some rest := by
  induction lit with
  | nil => intro rest; rfl
  | cons l ls ih =>
    intro rest
    simp only [List.cons_append, readLit, if_pos rfl]
    exact ih rest

theorem noDigitHead_litJ (x : List Char) : noDigitHead (litJ ++ x) = true := rfl

theorem noDigitHead_litSerial (x : List Char) :
    noDigitHead (litSerial ++ x) = true := rfl

theorem noDigitHead_litCoins (x : List Char) :
    noDigitHead (litCoins ++ x) = true := rfl

theorem optBindSome {A B : Type} (v : A) (f : A → Option B) :
    (do
      let x ← some v
      f x) = f v := rfl

/-- Lemma: `encCoin` prepended to anything, in cons-normal form (for exposing the
head character to the array parser). -/
theorem encCoin_cons (c : Coin) (x : List Char) :
    encCoin c ++ x = '\x7b' :: ('"' :: 'i' :: '"' :: ':' ::
      (intChars c.i ++ (litJ ++ (intChars c.j ++ (litSerial ++
        (escList c.serial.data ++ '"' :: (litClose ++ x))))))) := by
  simp [encCoin, litOpenI]

theorem readCoin_enc (c : Coin) (rest : List Char) :
    readCoin (encCoin c ++ rest) = some (c, rest) := by
  unfold readCoin encCoin
  simp only [List.append_assoc, List.cons_append]
  rw [readLit_append, optBindSome]
  rw [readInt_intChars c.i _ (noDigitHead_litJ _), optBindSome]
  rw [readLit_append, optBindSome]
  rw [readInt_intChars c.j _ (noDigitHead_litSerial _), optBindSome]
  rw [readLit_append, optBindSome]
  rw [readStrBody_escList c.serial.data, optBindSome]
  rw [readLit_append, optBindSome]

theorem readCoinsTail_enc (cs : List Coin) : ∀ (fuel : Nat) (rest : List Char),
    cs.length ≤ fuel →
    readCoinsTail fuel (encCoinsTail cs ++ rest) = some (cs, rest) := by
  induction cs with
  | nil =>
    intro fuel rest h
    show readCoinsTail fuel (']' :: rest) = some ([], rest)
    rw [readCoinsTail.eq_def]
    rfl
  | cons c cs' ih =>
    intro fuel rest h
    cases fuel with
    | zero => simp at h
    | succ f =>
      show readCoinsTail (f + 1)
        (',' :: (encCoin c ++ encCoinsTail cs' ++ rest)) = _
      rw [readCoinsTail.eq_def]
      simp only [List.append_assoc]
      rw [readCoin_enc c]
      show Option.map (fun q => (c :: q.1, q.2))
        (readCoinsTail f (encCoinsTail cs' ++ rest)) = _
      rw [ih f rest (by simp only [List.length_cons] at h; omega)]
      rfl

theorem readCoins_enc (cs : List Coin) (fuel : Nat) (rest : List Char)
    (h : cs.length ≤ fuel) :
    readCoins fuel (encCoins cs ++ rest) = some (cs, rest) := by
  cases cs with
  | nil => rfl
  | cons c cs' =>
    show readCoins fuel ('[' :: ((encCoin c ++ encCoinsTail cs') ++ rest)) = _
    rw [readCoins.eq_def]
    rw [List.append_assoc]
    rw [encCoin_cons c (encCoinsTail cs' ++ rest)]
    simp only [List.head?_cons, List.tail_cons]
    rw [if_neg (by decide)]
    rw [← encCoin_cons c (encCoinsTail cs' ++ rest)]
    rw [readCoin_enc c]
    show Option.map (fun q => (c :: q.1, q.2))
      (readCoinsTail fuel (encCoinsTail cs' ++ rest)) = _
    rw [readCoinsTail_enc cs' fuel rest
      (by simp only [List.length_cons] at h; omega)]
    rfl

theorem coins_length_le_enc (cs : List Coin) :
    cs.length ≤ (encCoinsTail cs).length := by
  induction cs with
  | nil => simp [encCoinsTail]
  | cons c cs' ih =>
    simp only [encCoinsTail, List.length_cons, List.length_append]
    omega

theorem coins_length_le_encCoins (cs : List Coin) :
    cs.length ≤ (encCoins cs).length := by
  cases cs with
  | nil => simp [encCoins]
  | cons c cs' =>
    have h1 := coins_length_le_enc cs'
    simp only [encCoins, List.length_cons, List.length_append]
    omega

theorem readCache_enc (c : Cache) (rest : List Char) :
    readCache (encCache c ++ rest) = some (c, rest) := by
  unfold readCache encCache
  simp only [List.append_assoc, List.cons_append]
  rw [readLit_append, optBindSome]
  rw [readInt_intChars c.i _ (noDigitHead_litJ _), optBindSome]
  rw [readLit_append, optBindSome]
  rw [readInt_intChars c.j _ (noDigitHead_litCoins _), optBindSome]
  rw [readLit_append, optBindSome]
  rw [readCoins_enc c.coins _ _ ?hfuel, optBindSome]
  case hfuel =>
    have h1 := coins_length_le_encCoins c.coins
    simp only [List.length_append]
    omega
  rw [readLit_append, optBindSome]

/-- Memento round-trip at the cache level: parsing the produced JSON text
recovers the same `(i, j, coins)`. -/
theorem fromMomento_toMomento (c : Cache) :
    Cache.fromMomento (Cache.toMomento c) = some c := by
  unfold Cache.fromMomento Cache.toMomento
  rw [show (String.mk (encCache c)).data = encCache c ++ [] from by simp]
  rw [readCache_enc c []]

theorem lookupKV_setKV_self {α : Type} (m : List (String × α)) (k : String)
    (v : α) : lookupKV (setKV m k v) k = some v := by
  induction m with
  | nil => simp [setKV, lookupKV]
  | cons p ps ih =>
    by_cases h : p.1 = k
    · simp [setKV, h, lookupKV]
    · simp [setKV, h, lookupKV, ih]

theorem lookupKV_setKV_ne {α : Type} (m : List (String × α)) (k k' : String)
    (v : α) (h : k ≠ k') : lookupKV (setKV m k v) k' = lookupKV m k' := by
  induction m with
  | nil => simp [setKV, lookupKV, h]
  | cons p ps ih =>
    by_cases hp : p.1 = k
    · subst hp
      simp [setKV, lookupKV, h, ih]
    · simp only [setKV, hp, if_false]
      by_cases hp' : p.1 = k'
      · simp [lookupKV, hp']
      · simp [lookupKV, hp', ih]

theorem lookupKV_setKV_isSome {α : Type} (m : List (String × α))
    (k k' : String) (v : α) (h : (lookupKV m k').isSome) :
    (lookupKV (setKV m k v) k').isSome := by
  by_cases hk : k = k'
  · subst hk
    rw [lookupKV_setKV_self]
    rfl
  · rw [lookupKV_setKV_ne m k k' v hk]
    exact h

theorem storeCoins_setKV_found (m : List (String × String)) (k : String)
    (v w : String) (hk : lookupKV m k = some w) :
    storeCoins (setKV m k v) + momentoCoins w =
      storeCoins m + momentoCoins v := by
  induction m with
  | nil => simp [lookupKV] at hk
  | cons p ps ih =>
    by_cases hp : p.1 = k
    · simp only [lookupKV, hp, if_true] at hk
      cases hk
      simp only [setKV, hp, if_true, storeCoins, List.map_cons, List.sum_cons]
      omega
    · simp only [lookupKV, hp, if_false] at hk
      simp only [setKV, hp, if_false, storeCoins, List.map_cons, List.sum_cons]
      have := ih hk
      simp only [storeCoins] at this
      omega

theorem storeCoins_setKV_new (m : List (String × String)) (k : String)
    (v : String) (hk : lookupKV m k = none) :
    storeCoins (setKV m k v) = storeCoins m + momentoCoins v := by
  induction m with
  | nil => simp [setKV, storeCoins, momentoCoins]
  | cons p ps ih =>
    by_cases hp : p.1 = k
    · simp [lookupKV, hp] at hk
    · simp only [lookupKV, hp, if_false] at hk
      simp only [setKV, hp, if_false, storeCoins, List.map_cons, List.sum_cons]
      have := ih hk
      simp only [storeCoins] at this
      omega

theorem lookupKV_mem {α : Type} (m : List (String × α)) (k : String) (v : α)
    (h : lookupKV m k = some v) : (k, v) ∈ m := by
  induction m with
  | nil => simp [lookupKV] at h
  | cons p ps ih =>
    by_cases hp : p.1 = k
    · simp only [lookupKV, hp, if_true, Option.some.injEq] at h
      subst h
      subst hp
      exact List.mem_cons.mpr (Or.inl Prod.mk.eta)
    · simp only [lookupKV, hp, if_false] at h
      exact List.mem_cons_of_mem _ (ih h)

theorem mem_setKV {α : Type} (m : List (String × α)) (k : String) (v : α) :
    ∀ p ∈ setKV m k v, p = (k, v) ∨ p ∈ m := by
  induction m with
  | nil =>
    intro p hp
    simp only [setKV, List.mem_singleton] at hp
    exact Or.inl hp
  | cons q qs ih =>
    intro p hp
    by_cases hq : q.1 = k
    · simp only [setKV, hq, if_true, List.mem_cons] at hp
      rcases hp with hp | hp
      · exact Or.inl hp
      · exact Or.inr (List.mem_cons_of_mem _ hp)
    · simp only [setKV, hq, if_false, List.mem_cons] at hp
      rcases hp with hp | hp
      · exact Or.inr (by simp [hp])
      · rcases ih p hp with h' | h'
        · exact Or.inl h'
        · exact Or.inr (List.mem_cons_of_mem _ h')

theorem storeDecodable_set (m : List (String × String)) (k : String)
    (c : Cache) (h : StoreDecodable m) :
    StoreDecodable (setKV m k (Cache.toMomento c)) := by
  intro p hp
  rcases mem_setKV m k (Cache.toMomento c) p hp with h' | h'
  · subst h'
    exact ⟨c, fromMomento_toMomento c⟩
  · exact h p h'

theorem storeHasCoin_set (m : List (String × String)) (k k' : String)
    (cOld cNew : Cache) (coin : Coin) (mo : String)
    (hm : lookupKV m k = some mo) (hdec : Cache.fromMomento mo = some cOld)
    (hsub : ∀ x ∈ cOld.coins, x ∈ cNew.coins)
    (h : StoreHasCoin m k' coin) :
    StoreHasCoin (setKV m k (Cache.toMomento cNew)) k' coin := by
  obtain ⟨mo', c', hl, hd, hc⟩ := h
  by_cases hk : k = k'
  · subst hk
    rw [hl] at hm
    cases hm
    rw [hdec] at hd
    cases hd
    exact ⟨Cache.toMomento cNew, cNew, lookupKV_setKV_self ..,
      fromMomento_toMomento cNew, hsub _ hc⟩
  · exact ⟨mo', c', by rw [lookupKV_setKV_ne _ _ _ _ hk]; exact hl, hd, hc⟩

theorem resetGo_spec (coins : List Coin) : ∀ b : Board,
    StoreDecodable b.cacheStates →
    (∀ coin ∈ coins,
      (lookupKV b.cacheStates (cellKey coin.i coin.j)).isSome) →
    ∃ b', resetGo b coins = some b' ∧
      storeCoins b'.cacheStates = storeCoins b.cacheStates + coins.length ∧
      StoreDecodable b'.cacheStates ∧
      (∀ k coin, StoreHasCoin b.cacheStates k coin →
        StoreHasCoin b'.cacheStates k coin) ∧
      (∀ coin ∈ coins,
        StoreHasCoin b'.cacheStates (cellKey coin.i coin.j) coin) := by
  induction coins with
  | nil =>
    intro b hdec _
    exact ⟨b, rfl, by simp, hdec, fun _ _ h => h, by simp⟩
  | cons coin rest ih =>
    intro b hdec hkeys
    obtain ⟨mo, hmo⟩ := Option.isSome_iff_exists.mp
      (hkeys coin (List.mem_cons_self _ _))
    obtain ⟨c, hc0⟩ := hdec (cellKey coin.i coin.j, mo)
      (lookupKV_mem _ _ _ hmo)
    have hc : Cache.fromMomento mo = some c := hc0
    have hget : b.getCache coin.i coin.j = some c := by
      unfold Board.getCache
      rw [hmo]
      exact hc
    set cNew : Cache := { c with coins := c.coins ++ [coin] } with hcNew
    set b1 : Board := b.setCache coin.i coin.j cNew with hb1
    have hb1states : b1.cacheStates =
        setKV b.cacheStates (cellKey coin.i coin.j) cNew.toMomento := rfl
    have hdec1 : StoreDecodable b1.cacheStates := by
      rw [hb1states]
      exact storeDecodable_set _ _ _ hdec
    have hkeys1 : ∀ x ∈ rest,
        (lookupKV b1.cacheStates (cellKey x.i x.j)).isSome := by
      intro x hx
      rw [hb1states]
      exact lookupKV_setKV_isSome _ _ _ _
        (hkeys x (List.mem_cons_of_mem _ hx))
    obtain ⟨b', hrun, hsum, hdec', hmono, hrest⟩ := ih b1 hdec1 hkeys1
    have hmono1 : ∀ k x, StoreHasCoin b.cacheStates k x →
        StoreHasCoin b1.cacheStates k x := by
      intro k x hx
      rw [hb1states]
      refine storeHasCoin_set _ _ _ c cNew x mo hmo hc ?_ hx
      intro y hy
      simp [hcNew, hy]
    have hsum1 : storeCoins b1.cacheStates =
        storeCoins b.cacheStates + 1 := by
      have hfound := storeCoins_setKV_found b.cacheStates
        (cellKey coin.i coin.j) cNew.toMomento mo hmo
      have h1 : momentoCoins mo = c.coins.length := by
        unfold momentoCoins
        rw [hc]
      have h2 : momentoCoins cNew.toMomento = c.coins.length + 1 := by
        unfold momentoCoins
        rw [fromMomento_toMomento]
        simp [hcNew]
      rw [hb1states]
      omega
    refine ⟨b', ?_, ?_, hdec', ?_, ?_⟩
    · show resetGo b (coin :: rest) = some b'
      rw [resetGo]
      rw [hget]
      exact hrun
    · rw [hsum, hsum1]
      simp only [List.length_cons]
      omega
    · intro k x hx
      exact hmono k x (hmono1 k x hx)
    · intro x hx
      rcases List.mem_cons.mp hx with h | h
      · subst h
        refine hmono _ x ?_
        rw [hb1states]
        exact ⟨cNew.toMomento, cNew, lookupKV_setKV_self ..,
          fromMomento_toMomento cNew, by simp [hcNew]⟩
      · exact hrest x h

/-- Every reachable state satisfies the invariant. -/
theorem reach_inv (hash : String → ℚ) (s : GameState) (h : Reach hash s) :
    Inv s := by
  induction h with
  | init origin =>
    exact ⟨fun p hp => by simp [initialBoard] at hp,
      fun coin hc => by simp at hc⟩
  | move s p _ ih => exact ih
  | spawn s i j _ _ _ ih =>
    refine ⟨storeDecodable_set _ _ _ ih.1, ?_⟩
    intro coin hc
    exact lookupKV_setKV_isSome _ _ _ _ (ih.2 coin hc)
  | collect s cache coin _ _ hkey ih =>
    refine ⟨storeDecodable_set _ _ _ ih.1, ?_⟩
    intro x hx
    rcases List.mem_append.mp hx with h' | h'
    · exact lookupKV_setKV_isSome _ _ _ _ (ih.2 x h')
    · have : x = coin := by simpa using h'
      subst this
      exact lookupKV_setKV_isSome _ _ _ _ hkey
  | deposit s cache _ ih =>
    cases hl : s.inventory.getLast? with
    | none => simpa [depositCoin, hl] using ih
    | some coin =>
      constructor
      · show StoreDecodable (depositCoin s cache).board.cacheStates
        simp only [depositCoin, hl]
        exact storeDecodable_set _ _ _ ih.1
      · intro x hx
        simp only [depositCoin, hl] at hx ⊢
        have hx' : x ∈ s.inventory := (List.dropLast_sublist _).subset hx
        exact lookupKV_setKV_isSome _ _ _ _ (ih.2 x hx')
  | doReset s s' origin _ hres ih =>
    obtain ⟨b', hrun, hs'⟩ := Option.map_eq_some'.mp hres
    obtain ⟨b'', hrun', _, hdec', _, _⟩ :=
      resetGo_spec s.inventory s.board ih.1 ih.2
    rw [hrun] at hrun'
    cases hrun'
    subst hs'
    exact ⟨hdec', by simp⟩

theorem getCache_eq (b : Board) (i j : Int) :
    b.getCache i j =
      (lookupKV b.cacheStates (cellKey i j)).bind Cache.fromMomento := by
  unfold Board.getCache
  cases lookupKV b.cacheStates (cellKey i j) <;> rfl

theorem setCache_states (b : Board) (i j : Int) (c : Cache) :
    (b.setCache i j c).cacheStates =
      setKV b.cacheStates (cellKey i j) c.toMomento := rfl

/-- When every inventory coin's origin cell holds a readable memento, the
reset loop runs to completion. -/
theorem resetGo_total (coins : List Coin) : ∀ b : Board,
    (∀ coin ∈ coins, ∃ c, b.getCache coin.i coin.j = some c) →
    ∃ b', resetGo b coins = some b' := by
  induction coins with
  | nil => intro b _; exact ⟨b, rfl⟩
  | cons coin rest ih =>
    intro b h
    obtain ⟨c, hc⟩ := h coin (List.mem_cons_self _ _)
    have hrest : ∀ x ∈ rest, ∃ c',
        (b.setCache coin.i coin.j
          { c with coins := c.coins ++ [coin] }).getCache x.i x.j = some c' := by
      intro x hx
      by_cases hk : cellKey x.i x.j = cellKey coin.i coin.j
      · refine ⟨{ c with coins := c.coins ++ [coin] }, ?_⟩
        rw [getCache_eq, setCache_states, hk, lookupKV_setKV_self]
        exact fromMomento_toMomento _
      · obtain ⟨c', hc'⟩ := h x (List.mem_cons_of_mem _ hx)
        refine ⟨c', ?_⟩
        rw [getCache_eq, setCache_states,
          lookupKV_setKV_ne _ _ _ _ (fun he => hk he.symm), ← getCache_eq]
        exact hc'
    obtain ⟨b', hb'⟩ := ih _ hrest
    refine ⟨b', ?_⟩
    rw [resetGo, hc]
    exact hb'

/-- When some inventory coin's origin cell has no store entry at all, the
reset loop faults. -/
theorem resetGo_fault (coins : List Coin) : ∀ (b : Board) (coin : Coin),
    coin ∈ coins →
    lookupKV b.cacheStates (cellKey coin.i coin.j) = none →
    resetGo b coins = none := by
  induction coins with
  | nil => intro b coin h _; simp at h
  | cons c0 rest ih =>
    intro b coin hmem hnone
    rw [resetGo]
    cases hg : b.getCache c0.i c0.j with
    | none => rfl
    | some c =>
      rcases List.mem_cons.mp hmem with h | h
      · subst h
        rw [getCache_eq, hnone] at hg
        simp at hg
      · apply ih _ coin h
        rw [setCache_states, lookupKV_setKV_ne]
        · exact hnone
        · intro he
          rw [getCache_eq, he, hnone] at hg
          simp at hg

theorem mem_keys_setKV {α : Type} (m : List (String × α)) (k : String)
    (v : α) : ∀ x ∈ (setKV m k v).map Prod.fst,
      x = k ∨ x ∈ m.map Prod.fst := by
  intro x hx
  obtain ⟨p, hp, hpx⟩ := List.mem_map.mp hx
  rcases mem_setKV m k v p hp with h | h
  · subst h
    exact Or.inl hpx.symm
  · exact Or.inr (List.mem_map.mpr ⟨p, h, hpx⟩)

theorem keysNodup_setKV {α : Type} (m : List (String × α)) (k : String)
    (v : α) (h : KeysNodup m) : KeysNodup (setKV m k v) := by
  induction m with
  | nil => simp [setKV, KeysNodup]
  | cons q qs ih =>
    by_cases hq : q.1 = k
    · unfold KeysNodup at h ⊢
      simp only [setKV, hq, if_true, List.map_cons, List.nodup_cons] at h ⊢
      exact ⟨hq ▸ h.1, h.2⟩
    · unfold KeysNodup at h ⊢
      simp only [setKV, hq, if_false, List.map_cons, List.nodup_cons] at h ⊢
      refine ⟨?_, ih h.2⟩
      intro hmem
      rcases mem_keys_setKV qs k v q.1 hmem with h' | h'
      · exact hq h'
      · exact h.1 h'

theorem foldl_preserve {α β : Type} (P : β → Prop) (f : β → α → β)
    (hf : ∀ b a, P b → P (f b a)) :
    ∀ (l : List α) (b : β), P b → P (l.foldl f b) := by
  intro l
  induction l with
  | nil => intro b hb; exact hb
  | cons a l' ih => intro b hb; exact ih (f b a) (hf b a hb)

theorem getCanonicalCell_keysNodup (b : Board) (cell : Cell)
    (h : KeysNodup b.knownCells) :
    KeysNodup (b.getCanonicalCell cell).2.knownCells := by
  unfold Board.getCanonicalCell
  cases hl : lookupKV b.knownCells (cellKey cell.i cell.j) with
  | some c => exact h
  | none => exact keysNodup_setKV _ _ _ h

theorem genW_eq : generateCoinsForCache hashW 0 0 = coinsW := by
  unfold generateCoinsForCache
  rw [show hashW (coinsKey 0 0) = 1 / 2 from by
    unfold hashW
    rw [if_neg (by decide)]]
  rw [show ((⌊(1 : ℚ) / 2 * 8⌋).toNat) = 4 from by
    rw [show ⌊(1 : ℚ) / 2 * 8⌋ = 4 from by norm_num]
    rfl]
  decide

/-- The momento store of `stateW2`, written out concretely. -/
theorem stateW2_states : stateW2.board.cacheStates =
    setKV (setKV [] (cellKey 0 0) (Cache.toMomento ⟨0, 0, generateCoinsForCache hashW 0 0⟩))
      (cellKey 0 0)
      (Cache.toMomento ⟨0, 0, coinsW.filter (fun c => c.serial != "1")⟩) :=
  rfl

/-! ## The claims -/

/-- In a session started fresh, reset does satisfy the claimed
conservation: every inventory coin is returned to its stored origin
cache, the inventory empties, and the total coin count is preserved.
The failure of C1 is confined to sessions restored from a persisted
record (see the claim theorem below). -/
theorem reach_reset_conservation (hash : String → ℚ) (s : GameState)
    (origin : Point) (h : Reach hash s) :
    ∃ s', s.reset origin = some s' ∧
      totalCoins s' = totalCoins s ∧
      s'.inventory = [] ∧
      (∀ coin ∈ s.inventory,
        StoreHasCoin s'.board.cacheStates (cellKey coin.i coin.j) coin) := by
  have hinv := reach_inv hash s h
  obtain ⟨b', hrun, hsum, _, _, hplaced⟩ :=
    resetGo_spec s.inventory s.board hinv.1 hinv.2
  refine ⟨⟨b', origin, [], []⟩, ?_, ?_, rfl, hplaced⟩
  · unfold GameState.reset
    rw [hrun]
    rfl
  · unfold totalCoins
    simp only [List.length_nil]
    rw [hsum]
    omega

set_option maxRecDepth 40000 in
/-- C1: the claimed conservation fails on a program-reachable state.
`stateL2` is reachable (`ReachL`): a fresh session spawns the cache at
`(0,0)`, collects coin `"1"`, moves far away (each change re-saves the
record), and a new session reloads the persisted record.  Because
`getCacheData` swaps the `key`/`momento` fields, `setCacheStates`
installs the cell name under the momento-text key, so the restored
coin's origin cell `(0,0)` has no store entry; `reset` then faults
(`none`) at the unguarded dereference instead of returning the coin and
emptying the inventory — no post-reset state exists, so no coin is
returned and nothing is conserved. -/
theorem claim1_reset_conservation_divergence :
    ReachL hashW stateL2 ∧
    stateL2.inventory = [coinW] ∧
    stateL2.board.getCache coinW.i coinW.j = none ∧
    GameState.reset stateL2 pointW = none := by
  have hsave : saveGameState stateW3 = recL := by
    unfold saveGameState Board.getCacheData
    have hb : stateW3.board.cacheStates = stateW2.board.cacheStates := rfl
    rw [hb, stateW2_states, genW_eq]
    decide
  have hparse : readGameRecord tL = some (some (saveGameState stateW3)) := by
    rw [hsave]
    decide
  have hload : loadGameState (some tL) ⟨initialBoard, pointW, [], [pointW]⟩
      = Except.ok stateL2 := by
    simp only [loadGameState, hparse, hsave]
    rfl
  have hreach3 : ReachL hashW stateW3 :=
    ReachL.move stateW2 pointL
      (ReachL.collect stateW1 cacheW coinW
        (ReachL.spawn stateW0 0 0 (ReachL.init pointW) (by decide)
          (by
            unfold hashW
            rw [if_pos rfl]
            norm_num [CACHE_SPAWN_PROBABILITY]))
        (by decide) (by decide))
  exact ⟨ReachL.load stateW3 stateL2 tL pointW hreach3 hparse hload,
    rfl, by decide, by decide⟩

/-- C2: the claim says `save()` persists `(key, momento)` pairs where
`key` is the `"i,j"` cell name and `momento` the serialized cache state.
The code swaps them: JS `Map.forEach` passes `(value, key)`, so
`getCacheData` emits the momento string in the `key` field and the cell
name in the `momento` field, and `setCacheStates` then installs the cell
name string under the momento-string key. -/
theorem claim2_getCacheData_swapped :
    (∀ s : GameState, (saveGameState s).caches =
      s.board.cacheStates.map (fun p => ⟨p.2, p.1⟩)) ∧
    (saveGameState stateC2).caches =
      [⟨Cache.toMomento cacheC2, cellKey 1 2⟩] ∧
    Cache.toMomento cacheC2 ≠ cellKey 1 2 ∧
    lookupKV
      (initialBoard.setCacheStates (saveGameState stateC2).caches).cacheStates
      (cellKey 1 2) = none ∧
    lookupKV
      (initialBoard.setCacheStates (saveGameState stateC2).caches).cacheStates
      (Cache.toMomento cacheC2) = some (cellKey 1 2) := by
  refine ⟨fun s => rfl, by decide, by decide, by decide, by decide⟩

/-- C3 counterexample: an unparsable persisted record does raise: `load`
on the text `\x7b` surfaces the `JSON.parse` error instead of silently
starting fresh. -/
theorem claim3_unparsable_raises :
    loadGameState (some "\x7b") stateW0 = Except.error () := rfl

/-- C3 as amended: a missing record — or one parsing to a falsy value
(`null`, `false`, a zero number, the empty string) — silently leaves
the fresh state; an unparsable record raises the parse error, uncaught;
a record that parses restores the player fields and bulk-installs every
saved `(key, momento)` pair. -/
theorem claim3_load_behavior (s : GameState) (str : String)
    (r : GameRecord) :
    (loadGameState none s = .ok s) ∧
    (readGameRecord str = none → loadGameState (some str) s = .error ()) ∧
    (jsonFalsy str = true → loadGameState (some str) s = .ok s) ∧
    (readGameRecord str = some none → loadGameState (some str) s = .ok s) ∧
    (readGameRecord str = some (some r) →
      loadGameState (some str) s =
        .ok { board := s.board.setCacheStates r.caches,
              location := r.playerLocation,
              inventory := r.playerInventory,
              moveHistory := r.playerMoveHistory }) := by
  refine ⟨rfl, ?_, ?_, ?_, ?_⟩
  · intro h
    simp [loadGameState, h]
  · intro h
    simp [loadGameState, readGameRecord, h]
  · intro h
    simp [loadGameState, h]
  · intro h
    simp [loadGameState, h]

/-- Witness for C3 at concrete inputs: a missing record, the unparsable
`\x7b`, the falsy texts `null`, `0` and `false`, and a parsable
record. -/
theorem claim3_load_behavior_witness :
    (loadGameState none stateW0 = .ok stateW0) ∧
    (loadGameState (some "\x7b") stateW0 = .error ()) ∧
    (loadGameState (some "null") stateW0 = .ok stateW0) ∧
    (loadGameState (some "0") stateW0 = .ok stateW0) ∧
    (loadGameState (some "false") stateW0 = .ok stateW0) ∧
    (loadGameState (some recTextW) stateW0 =
      .ok { board := stateW0.board.setCacheStates recW.caches,
            location := recW.playerLocation,
            inventory := recW.playerInventory,
            moveHistory := recW.playerMoveHistory }) :=
  ⟨(claim3_load_behavior stateW0 "\x7b" recW).1,
   (claim3_load_behavior stateW0 "\x7b" recW).2.1 (by decide),
   (claim3_load_behavior stateW0 "null" recW).2.2.2.1 (by decide),
   (claim3_load_behavior stateW0 "0" recW).2.2.1 (by decide),
   (claim3_load_behavior stateW0 "false" recW).2.2.1 (by decide),
   (claim3_load_behavior stateW0 recTextW recW).2.2.2.2 (by decide)⟩

/-- C4: the claim demands floor (round toward negative infinity)
semantics, which src/prefabs/board.ts implements and under which the
scenario point resolves to `(369895, -1220628)`; but the cited
src/src/board.ts iteration uses `Math.trunc`, which diverges from floor
on negative non-integral quotients: at longitude `-122.06285` it yields
`-1220628` where floor semantics give `-1220629`. -/
theorem claim4_cell_resolution :
    (∀ (b : Board) (p : Point), b.getCellForPoint p =
      b.getCanonicalCell ⟨⌊p.lat / b.tileWidth⌋, ⌊p.lng / b.tileWidth⌋⟩) ∧
    (initialBoard.getCellForPoint pointC4).1 = ⟨369895, -1220628⟩ ∧
    (initialBoard.getCellForPointTrunc pointC4).1 = ⟨369895, -1220628⟩ ∧
    ⌊pointC4bad.lng / TILE_WIDTH⌋ = -1220629 ∧
    (initialBoard.getCellForPoint pointC4bad).1 = ⟨369895, -1220629⟩ ∧
    (initialBoard.getCellForPointTrunc pointC4bad).1 = ⟨369895, -1220628⟩ := by
  have hlat4 : ⌊pointC4.lat / initialBoard.tileWidth⌋ = 369895 := by
    norm_num [pointC4, initialBoard, TILE_WIDTH]
  have hlng4 : ⌊pointC4.lng / initialBoard.tileWidth⌋ = -1220628 := by
    norm_num [pointC4, initialBoard, TILE_WIDTH]
  have hlatb : ⌊pointC4bad.lat / initialBoard.tileWidth⌋ = 369895 := by
    norm_num [pointC4bad, initialBoard, TILE_WIDTH]
  have hlngb : ⌊pointC4bad.lng / initialBoard.tileWidth⌋ = -1220629 := by
    norm_num [pointC4bad, initialBoard, TILE_WIDTH]
  have tlat4 : jsTrunc (pointC4.lat / initialBoard.tileWidth) = 369895 := by
    unfold jsTrunc
    rw [if_neg (by norm_num [pointC4, initialBoard, TILE_WIDTH])]
    exact hlat4
  have tlng4 : jsTrunc (pointC4.lng / initialBoard.tileWidth) = -1220628 := by
    unfold jsTrunc
    rw [if_pos (by norm_num [pointC4, initialBoard, TILE_WIDTH])]
    rw [show pointC4.lng / initialBoard.tileWidth = -((1220628 : ℚ)) from by
      norm_num [pointC4, initialBoard, TILE_WIDTH]]
    rw [Int.ceil_neg]
    norm_num
  have tlatb : jsTrunc (pointC4bad.lat / initialBoard.tileWidth) = 369895 := by
    unfold jsTrunc
    rw [if_neg (by norm_num [pointC4bad, initialBoard, TILE_WIDTH])]
    exact hlatb
  have tlngb : jsTrunc (pointC4bad.lng / initialBoard.tileWidth) =
      -1220628 := by
    unfold jsTrunc
    rw [if_pos (by norm_num [pointC4bad, initialBoard, TILE_WIDTH])]
    rw [show pointC4bad.lng / initialBoard.tileWidth =
        -((2441257 / 2 : ℚ)) from by
      norm_num [pointC4bad, initialBoard, TILE_WIDTH]]
    rw [Int.ceil_neg]
    norm_num
  refine ⟨fun b p => rfl, ?_, ?_, ?_, ?_, ?_⟩
  · unfold Board.getCellForPoint
    rw [hlat4, hlng4]
    rfl
  · unfold Board.getCellForPointTrunc
    rw [tlat4, tlng4]
    rfl
  · show ⌊pointC4bad.lng / TILE_WIDTH⌋ = -1220629
    have heq : pointC4bad.lng / TILE_WIDTH =
        pointC4bad.lng / initialBoard.tileWidth := rfl
    rw [heq, hlngb]
  · unfold Board.getCellForPoint
    rw [hlatb, hlngb]
    rfl
  · unfold Board.getCellForPointTrunc
    rw [tlatb, tlngb]
    rfl

/-- C5: at a cell where `getCache` signals absence, a cache is spawned
iff the hash of the cell's spawn key `"i,j"` is below the spawn
probability; the spawned cache holds `floor(hash("i,j,coins") × 8)`
coins with serials `0..count-1` and is immediately written via
`setCache`; the coin-count key is the spawn key with the `,coins`
discriminator suffix, a distinct key. -/
theorem claim5_spawn_rule (hash : String → ℚ) (b : Board) (cell : Cell) :
    (∀ c, b.getCache cell.i cell.j = some c →
      processCell hash CACHE_SPAWN_PROBABILITY b cell = b) ∧
    (b.getCache cell.i cell.j = none →
      ((hash (cellKey cell.i cell.j) < CACHE_SPAWN_PROBABILITY →
        processCell hash CACHE_SPAWN_PROBABILITY b cell =
          b.setCache cell.i cell.j
            ⟨cell.i, cell.j, generateCoinsForCache hash cell.i cell.j⟩) ∧
      (¬ hash (cellKey cell.i cell.j) < CACHE_SPAWN_PROBABILITY →
        processCell hash CACHE_SPAWN_PROBABILITY b cell = b))) ∧
    generateCoinsForCache hash cell.i cell.j =
      (List.range ((⌊hash (coinsKey cell.i cell.j) * 8⌋).toNat)).map
        (fun n => ⟨cell.i, cell.j, natStr n⟩) ∧
    coinsKey cell.i cell.j = cellKey cell.i cell.j ++ ",coins" ∧
    cellKey cell.i cell.j ≠ coinsKey cell.i cell.j := by
  refine ⟨?_, ?_, rfl, rfl, ?_⟩
  · intro c hc
    unfold processCell
    rw [hc]
  · intro hn
    constructor
    · intro hlt
      unfold processCell
      rw [hn]
      simp only [hlt, if_true]
      rfl
    · intro hlt
      unfold processCell
      rw [hn]
      simp only [hlt, if_false]
  · intro h
    have hlen := congrArg String.length h
    rw [show coinsKey cell.i cell.j =
      cellKey cell.i cell.j ++ ",coins" from rfl] at hlen
    rw [String.length_append] at hlen
    have h6 : (",coins" : String).length = 6 := rfl
    omega

/-- Witness for C5: at cell `(0,0)` on the fresh board with `hashW`, the
guard holds and the cache is spawned and written. -/
theorem claim5_spawn_rule_witness :
    processCell hashW CACHE_SPAWN_PROBABILITY initialBoard ⟨0, 0⟩ =
      initialBoard.setCache 0 0
        ⟨0, 0, generateCoinsForCache hashW 0 0⟩ ∧
    cellKey 0 0 ≠ coinsKey 0 0 :=
  ⟨((claim5_spawn_rule hashW initialBoard ⟨0, 0⟩).2.1 (by decide)).1
      (by
        show hashW (cellKey 0 0) < CACHE_SPAWN_PROBABILITY
        unfold hashW
        rw [if_pos rfl]
        norm_num [CACHE_SPAWN_PROBABILITY]),
   (claim5_spawn_rule hashW initialBoard ⟨0, 0⟩).2.2.2.2⟩

/-- C6: from a cache `[#0, #1, #2]` and an empty inventory, collecting
coin `#1` leaves the stored cache `[#0, #2]` (original relative order)
and the inventory `[#1]`; depositing immediately afterwards returns the
stored cache to `[#0, #2, #1]` — the coin appended at the end, not
reinserted — and empties the inventory. -/
theorem claim6_collect_deposit_roundtrip :
    stateC6a.board.getCache 1 2 =
      some ⟨1, 2, [⟨1, 2, "0"⟩, ⟨1, 2, "2"⟩]⟩ ∧
    stateC6a.inventory = [⟨1, 2, "1"⟩] ∧
    stateC6b.board.getCache 1 2 =
      some ⟨1, 2, [⟨1, 2, "0"⟩, ⟨1, 2, "2"⟩, ⟨1, 2, "1"⟩]⟩ ∧
    stateC6b.inventory = [] := by decide

/-- C7: deserializing the memento produced by serializing any cache
yields a cache with identical `(i, j)` and an identical coin list, and
deserializing any memento then re-serializing reproduces structurally
identical content. -/
theorem claim7_memento_roundtrip :
    (∀ c : Cache, Cache.fromMomento (Cache.toMomento c) = some c) ∧
    (∀ (m : String) (c : Cache), Cache.fromMomento m = some c →
      Cache.fromMomento (Cache.toMomento c) = some c) :=
  ⟨fromMomento_toMomento, fun _ c _ => fromMomento_toMomento c⟩

/-- Witness for C7 at a concrete cache with negative coordinates and two
coins. -/
theorem claim7_memento_roundtrip_witness :
    Cache.fromMomento (Cache.toMomento cacheC2) = some cacheC2 :=
  claim7_memento_roundtrip.2 (Cache.toMomento cacheC2) cacheC2 (by decide)

/-- C8: `depositCoin` on an empty inventory is a no-op — state unchanged
and no fault; on a non-empty inventory it pops the most recently
collected coin, appends it to the cache and writes the cache back; the
underlying `Player.depositCoin` (`pop()!`) returns the defined empty
result `none` on an empty inventory instead of faulting. -/
theorem claim8_deposit_empty_noop (s : GameState) (cache : Cache) :
    (s.inventory = [] → depositCoin s cache = s) ∧
    (∀ (coin : Coin) (inv' : List Coin), s.inventory = inv' ++ [coin] →
      depositCoin s cache =
        { s with
          inventory := inv',
          board := s.board.setCache cache.i cache.j
            { cache with coins := cache.coins ++ [coin] } }) ∧
    playerDepositCoin [] = (none, []) := by
  refine ⟨?_, ?_, rfl⟩
  · intro h
    unfold depositCoin
    rw [h]
    rfl
  · intro coin inv' h
    unfold depositCoin
    rw [h, List.getLast?_concat, List.dropLast_concat]

/-- Witness for C8: an empty-inventory deposit leaves the C6 start state
unchanged; a deposit from `stateC6a` (inventory `[#1]`) pops `#1`. -/
theorem claim8_deposit_empty_noop_witness :
    depositCoin stateC6 cacheC6 = stateC6 ∧
    depositCoin stateC6a cacheC6a =
      { stateC6a with
        inventory := [],
        board := stateC6a.board.setCache cacheC6a.i cacheC6a.j
          { cacheC6a with coins := cacheC6a.coins ++ [⟨1, 2, "1"⟩] } } :=
  ⟨(claim8_deposit_empty_noop stateC6 cacheC6).1 rfl,
   (claim8_deposit_empty_noop stateC6a cacheC6a).2.1 ⟨1, 2, "1"⟩ []
     (by decide)⟩

theorem getCanonicalCell_tileWidth (b : Board) (cell : Cell) :
    (b.getCanonicalCell cell).2.tileWidth = b.tileWidth := by
  unfold Board.getCanonicalCell
  cases hl : lookupKV b.knownCells (cellKey cell.i cell.j) <;> rfl

theorem getCanonicalCell_idem (b : Board) (cell : Cell) :
    (b.getCanonicalCell cell).2.getCanonicalCell cell =
      ((b.getCanonicalCell cell).1, (b.getCanonicalCell cell).2) := by
  unfold Board.getCanonicalCell
  cases hl : lookupKV b.knownCells (cellKey cell.i cell.j) with
  | some c => simp [hl]
  | none => simp [hl, lookupKV_setKV_self]

theorem getCanonicalCell_registers (b : Board) (cell : Cell) :
    (lookupKV (b.getCanonicalCell cell).2.knownCells
      (cellKey cell.i cell.j)).isSome := by
  unfold Board.getCanonicalCell
  cases hl : lookupKV b.knownCells (cellKey cell.i cell.j) with
  | some c => simp [hl]
  | none => simp [lookupKV_setKV_self]

/-- C9: the flyweight map holds at most one canonical cell per key;
`getCanonicalCell`, `getCellForPoint` and `getCellsNearPoint` preserve
that, and a referenced pair is present afterwards; a repeated
`getCellForPoint` for any coordinates mapping to the same integer pair
returns the identical canonical cell and leaves the board unchanged. -/
theorem claim9_canonical_cells :
    (∀ (b : Board) (cell : Cell), KeysNodup b.knownCells →
      KeysNodup (b.getCanonicalCell cell).2.knownCells) ∧
    (∀ (b : Board) (p : Point), KeysNodup b.knownCells →
      KeysNodup (b.getCellForPoint p).2.knownCells) ∧
    (∀ (b : Board) (p : Point), KeysNodup b.knownCells →
      KeysNodup (b.getCellsNearPoint p).2.knownCells) ∧
    (∀ (b : Board) (cell : Cell),
      (lookupKV (b.getCanonicalCell cell).2.knownCells
        (cellKey cell.i cell.j)).isSome) ∧
    (∀ (b : Board) (p q : Point),
      ⌊p.lat / b.tileWidth⌋ = ⌊q.lat / b.tileWidth⌋ →
      ⌊p.lng / b.tileWidth⌋ = ⌊q.lng / b.tileWidth⌋ →
      (b.getCellForPoint p).2.getCellForPoint q =
        ((b.getCellForPoint p).1, (b.getCellForPoint p).2)) := by
  refine ⟨getCanonicalCell_keysNodup, ?_, ?_, getCanonicalCell_registers, ?_⟩
  · intro b p h
    exact getCanonicalCell_keysNodup b _ h
  · intro b p h
    unfold Board.getCellsNearPoint
    have h1 : KeysNodup (b.getCellForPoint p).2.knownCells :=
      getCanonicalCell_keysNodup b _ h
    refine foldl_preserve
      (fun (acc : List Cell × Board) => KeysNodup acc.2.knownCells) _
      ?_ _ _ h1
    intro acc x hacc
    refine foldl_preserve
      (fun (acc2 : List Cell × Board) => KeysNodup acc2.2.knownCells) _
      ?_ _ _ hacc
    intro acc2 y hacc2
    exact getCanonicalCell_keysNodup acc2.2 _ hacc2
  · intro b p q hlat hlng
    show ((b.getCanonicalCell _).2.getCanonicalCell
      ⟨⌊q.lat / (b.getCanonicalCell _).2.tileWidth⌋,
        ⌊q.lng / (b.getCanonicalCell _).2.tileWidth⌋⟩) = _
    rw [getCanonicalCell_tileWidth, ← hlat, ← hlng]
    exact getCanonicalCell_idem b _

/-- Witness for C9 at the fresh board and a concrete point. -/
theorem claim9_canonical_cells_witness :
    KeysNodup (initialBoard.getCanonicalCell ⟨2, 3⟩).2.knownCells ∧
    KeysNodup (initialBoard.getCellForPoint pointC4).2.knownCells ∧
    ((initialBoard.getCellForPoint pointC4).2.getCellForPoint pointC4 =
      ((initialBoard.getCellForPoint pointC4).1,
        (initialBoard.getCellForPoint pointC4).2)) :=
  ⟨claim9_canonical_cells.1 initialBoard ⟨2, 3⟩
      (by simp [KeysNodup, initialBoard]),
   claim9_canonical_cells.2.1 initialBoard pointC4
      (by simp [KeysNodup, initialBoard]),
   claim9_canonical_cells.2.2.2.2 initialBoard pointC4 pointC4 rfl rfl⟩

/-- C10: `reset` dereferences each inventory coin's origin cache without
a guard: when every inventory coin's origin cell holds a readable
memento, reset completes; when some inventory coin's origin cell has no
stored memento, the non-null assertion passes the null cache to
`setCache` and reset faults instead of completing. -/
theorem claim10_reset_unguarded (s : GameState) (origin : Point) :
    ((∀ coin ∈ s.inventory, ∃ c, s.board.getCache coin.i coin.j = some c) →
      ∃ s', s.reset origin = some s') ∧
    (∀ coin ∈ s.inventory,
      lookupKV s.board.cacheStates (cellKey coin.i coin.j) = none →
      s.reset origin = none) := by
  constructor
  · intro h
    obtain ⟨b', hb'⟩ := resetGo_total s.inventory s.board h
    refine ⟨⟨b', origin, [], []⟩, ?_⟩
    unfold GameState.reset
    rw [hb']
    rfl
  · intro coin hmem hnone
    unfold GameState.reset
    rw [resetGo_fault s.inventory s.board coin hmem hnone]
    rfl

/-- Witness for C10: reset completes from `stateW2` (its coin's origin
is stored), and faults from a state whose only inventory coin's origin
cell `(3,4)` has no store entry. -/
theorem claim10_reset_unguarded_witness :
    (∃ s', stateW2.reset pointW = some s') ∧
    GameState.reset ⟨initialBoard, pointW, [⟨3, 4, "0"⟩], []⟩ pointW =
      none :=
  ⟨(claim10_reset_unguarded stateW2 pointW).1 (by
      intro coin hc
      rw [show stateW2.inventory = [coinW] from rfl] at hc
      rw [List.mem_singleton] at hc
      subst hc
      refine ⟨⟨0, 0, coinsW.filter (fun c => c.serial != "1")⟩, ?_⟩
      rw [getCache_eq, stateW2_states, genW_eq]
      decide),
   (claim10_reset_unguarded ⟨initialBoard, pointW, [⟨3, 4, "0"⟩], []⟩
      pointW).2 ⟨3, 4, "0"⟩ (by decide) (by decide)⟩

end Demo3
